import Mathlib

/-!
Shallow embedding of `envalidator` (src/main.py), a CLI tool that validates a
`.env.example` file's key set against a real `.env` file.

Modelling choices:
* A file is a `List Line`, one entry per physical line; a `Line` is a
  `List Char` (the line's characters, without the trailing newline).
* Python's `str.strip()` is `pyStrip`: drop whitespace from both ends.
* Python's `set` of keys is a `Finset Line`; where the source iterates over a
  set to write lines, we fix one concrete enumeration (`get_env_keys_list`,
  first-occurrence order) since Python's set iteration order is unspecified.
* `line.split("=", 1)` is modelled by `beforeEq` (the part before the first
  `=`, the whole line if there is none) and `afterEq` (the part after the
  first `=`, `none` if there is none; unpacking `key, value = ...` fails in
  Python exactly when `afterEq` is `none`).
* File-writing operations return the new file content; `init_env_file` takes
  the current state of the target file as `Option (List Line)` (`none` when
  the file does not exist) and returns the state after the call.
* The interactive prompt `confirm_action` consumes a list of input lines and
  returns `some answer` on the first decisive line, `none` if it exhausts the
  given input without an answer (the source would keep re-prompting).
-/

namespace Envalidator

abbrev Line := List Char

/-- Python `str.isspace` characters as stripped by `str.strip()` (ASCII range;
the tool's files are ASCII). -/
def isPySpace (c : Char) : Bool :=
  c = ' ' || c = '\t' || c = '\n' || c = '\r' || c = '\x0b' || c = '\x0c'

/-- Python `line.strip()`: remove leading and trailing whitespace. -/
def pyStrip (l : Line) : Line :=
  List.rdropWhile isPySpace (l.dropWhile isPySpace)

/-- Python `line.lower()` (ASCII). -/
def pyLower (l : Line) : Line := l.map Char.toLower

/-- Predicate used to split at the first `=`. -/
def notEq (c : Char) : Bool := c != '='

/-- The part of a line before the first `=`; the whole line if there is no
`=`.  This is `line.split("=", 1)[0]` in the source. -/
def beforeEq (l : Line) : Line := l.takeWhile notEq

/-- The part of a line after the first `=`, or `none` if the line has no `=`.
Unpacking `key, value = line.split("=", 1)` raises in Python exactly when
this is `none`. -/
def afterEq (l : Line) : Option Line :=
  match l.dropWhile notEq with
  | [] => none
  | _ :: rest => some rest

/-- Python `stripped.startswith("#")`. -/
def startsWithHash (l : Line) : Bool :=
  match l with
  | [] => false
  | c :: _ => c = '#'

/-- A line is skipped by the extractor and the scanner when, after stripping,
it is empty or starts with `#` (source: `if line and not
line.startswith("#")`, after `line = line.strip()`). -/
def isSkipped (line : Line) : Bool :=
  (pyStrip line).isEmpty || startsWithHash (pyStrip line)

/-- The key contributed by a non-skipped line: `line.split("=", 1)[0].strip()`
applied to the already-stripped line. -/
def keyOf (strippedLine : Line) : Line := pyStrip (beforeEq strippedLine)

/-- `get_env_keys` (src/main.py:75-84): the set of keys of the non-blank,
non-comment lines of a file. -/
def get_env_keys (lines : List Line) : Finset Line :=
  ((lines.filter (fun l => !(isSkipped l))).map (fun l => keyOf (pyStrip l))).toFinset

/-- The keys of a file as a duplicate-free list in first-occurrence order:
one concrete enumeration of `get_env_keys`, used where the source iterates
over the key set to write lines. -/
def get_env_keys_list (lines : List Line) : List Line :=
  ((lines.filter (fun l => !(isSkipped l))).map (fun l => keyOf (pyStrip l))).dedup

/-- `get_missing_keys` (src/main.py:86-88): set difference. -/
def get_missing_keys (sourceKeys targetKeys : Finset Line) : Finset Line :=
  sourceKeys \ targetKeys

/-- The marker comment line written by the fixer (src/main.py:101). -/
def markerLine : Line := "# Added by envalidator".toList

/-- The list `missing_keys` computed by `fix_missing_keys`
(src/main.py:95): the keys of the env file absent from the example file,
enumerated in the order fixed by `get_env_keys_list`. -/
def missingList (envLines exampleLines : List Line) : List Line :=
  (get_env_keys_list envLines).filter
    (fun k => !(decide (k ∈ get_env_keys exampleLines)))

/-- `fix_missing_keys` (src/main.py:90-104): compute the keys of the env file
missing from the example file; if none, leave the example file unchanged,
otherwise append a blank line, the marker comment, and one `key=` line per
missing key.  Returns the new content of the example file. -/
def fix_missing_keys (envLines exampleLines : List Line) : List Line :=
  if (missingList envLines exampleLines).isEmpty then exampleLines
  else exampleLines ++ ([] : Line) :: markerLine ::
    (missingList envLines exampleLines).map (fun k => k ++ ['='])

/-- Loop of `find_empty_keys` (src/main.py:106-118): walk the lines,
accumulating keys whose value is empty after stripping; `none` models the
uncaught unpacking failure on a non-skipped line without `=`. -/
def find_empty_keys_go : List Line → Finset Line → Option (Finset Line)
  | [], acc => some acc
  | line :: rest, acc =>
    if isSkipped line then find_empty_keys_go rest acc
    else
      match afterEq (pyStrip line) with
      | none => none
      | some v =>
        if (pyStrip v).isEmpty then
          find_empty_keys_go rest (insert (keyOf (pyStrip line)) acc)
        else find_empty_keys_go rest acc

/-- `find_empty_keys` (src/main.py:106-118). -/
def find_empty_keys (lines : List Line) : Option (Finset Line) :=
  find_empty_keys_go lines ∅

/-- `init_env_file` (src/main.py:58-73).  `approve` is `args.approve`;
`confirmAnswer` is the answer `confirm_action` would give; `envFile` is the
state of the target file (`none` when it does not exist).  Returns the state
of the target file after the call.  Note the source only acts inside the
`os.path.exists` branch: when the file does not exist nothing is written. -/
def init_env_file (approve : Bool) (confirmAnswer : Bool)
    (exampleLines : List Line) (envFile : Option (List Line)) : Option (List Line) :=
  match envFile with
  | some oldContent =>
    if !approve && !confirmAnswer then some oldContent
    else some ((get_env_keys_list exampleLines).map (fun k => k ++ ['=']))
  | none => none

/-- Whether a normalized answer accepts (`y`/`yes`), src/main.py:123. -/
def isYesChoice (c : Line) : Bool := c == "y".toList || c == "yes".toList

/-- Whether a normalized answer declines (`n`/`no`/empty), src/main.py:125. -/
def isNoChoice (c : Line) : Bool := c == "n".toList || c == "no".toList || c == ([] : Line)

/-- The normalization applied to user input: `input(...).lower().strip()`. -/
def normalizeChoice (l : Line) : Line := pyStrip (pyLower l)

/-- A normalized answer that ends the prompt loop. -/
def isDecisive (l : Line) : Bool := isYesChoice l || isNoChoice l

/-- `confirm_action` (src/main.py:120-127) over a list of available input
lines: `some true` / `some false` on the first decisive line, `none` when
the provided input is exhausted (the source would block re-prompting). -/
def confirm_action : List Line → Option Bool
  | [] => none
  | line :: rest =>
    let choice := normalizeChoice line
    if isYesChoice choice then some true
    else if isNoChoice choice then some false
    else confirm_action rest

/-- Modelled from the spec (§4.1): the key the spec describes for a raw line,
"split on the first `=` character — the left-hand trimmed substring is a
key"; defined only when the line does contain an `=`. -/
def specKeyOf (rawLine : Line) : Option Line :=
  if '=' ∈ rawLine then some (pyStrip (beforeEq rawLine)) else none

/-- Modelled from the spec (§4.1): the set of keys of the lines that are not
skipped, each being the trimmed substring left of the line's first `=`. -/
def spec_extract_keys (lines : List Line) : Finset Line :=
  ((lines.filter (fun l => !(isSkipped l))).filterMap specKeyOf).toFinset

/-- The set of empty-valued keys as the claim describes it: trimmed keys of
non-blank, non-comment lines whose value (the substring after the first `=`)
is empty after trimming. -/
def spec_empty_keys (lines : List Line) : Finset Line :=
  ((lines.filter (fun l => !(isSkipped l))).filterMap
    (fun l =>
      match afterEq (pyStrip l) with
      | some v => if (pyStrip v).isEmpty then some (keyOf (pyStrip l)) else none
      | none => none)).toFinset

/-! ### List helper lemmas -/

lemma takeWhile_append_of_forall {p : Char → Bool} {x : Line} (y : Line)
    (h : ∀ a ∈ x, p a = true) :
    (x ++ y).takeWhile p = x ++ y.takeWhile p := by
  induction x with
  | nil => simp
  | cons c t ih =>
    have hc : p c = true := h c (by simp)
    simp only [List.cons_append, List.takeWhile_cons, hc, if_true]
    rw [ih (fun a ha => h a (by simp [ha]))]

lemma takeWhile_append_of_mem_false {p : Char → Bool} {x : Line} (y : Line) {a : Char}
    (ha : a ∈ x) (hpa : p a = false) :
    (x ++ y).takeWhile p = x.takeWhile p := by
  induction x with
  | nil => simp at ha
  | cons c t ih =>
    by_cases hc : p c
    · rcases List.mem_cons.mp ha with h | h
      · rw [h] at hpa; rw [hpa] at hc; exact absurd hc (by simp)
      · simp only [List.cons_append, List.takeWhile_cons, hc, if_true]
        rw [ih h]
    · simp only [List.cons_append, List.takeWhile_cons]
      rw [if_neg hc, if_neg hc]

lemma dropWhile_append_of_forall {p : Char → Bool} {x : Line} (y : Line)
    (h : ∀ a ∈ x, p a = true) :
    (x ++ y).dropWhile p = y.dropWhile p := by
  induction x with
  | nil => simp
  | cons c t ih =>
    have hc : p c = true := h c (by simp)
    simp only [List.cons_append, List.dropWhile_cons, hc, if_true]
    exact ih (fun a ha => h a (by simp [ha]))

lemma dropWhile_append_of_ne_nil {p : Char → Bool} {x : Line} (y : Line)
    (h : x.dropWhile p ≠ []) :
    (x ++ y).dropWhile p = x.dropWhile p ++ y := by
  induction x with
  | nil => simp at h
  | cons c t ih =>
    by_cases hc : p c
    · rw [List.dropWhile_cons_of_pos hc] at h
      simp only [List.cons_append, List.dropWhile_cons_of_pos hc]
      exact ih h
    · simp only [List.cons_append, List.dropWhile_cons_of_neg hc]

lemma dropWhile_append_singleton {p : Char → Bool} {x : Line} {c : Char}
    (hc : p c = false) :
    (x ++ [c]).dropWhile p = x.dropWhile p ++ [c] := by
  by_cases h : x.dropWhile p = []
  · rw [dropWhile_append_of_forall _ (List.dropWhile_eq_nil_iff.mp h), h]
    simp [List.dropWhile_cons, hc]
  · exact dropWhile_append_of_ne_nil _ h

lemma rdropWhile_cons_of_neg {p : Char → Bool} {c : Char} (x : Line) (hc : p c = false) :
    List.rdropWhile p (c :: x) = c :: List.rdropWhile p x := by
  rw [List.rdropWhile, List.rdropWhile, List.reverse_cons, dropWhile_append_singleton hc,
      List.reverse_append]
  simp

lemma rdropWhile_append_rtakeWhile (p : Char → Bool) (l : Line) :
    List.rdropWhile p l ++ List.rtakeWhile p l = l := by
  rw [List.rdropWhile, List.rtakeWhile, ← List.reverse_append,
      List.takeWhile_append_dropWhile, List.reverse_reverse]

/-! ### Basic facts about pyStrip -/

lemma dropWhile_pyStrip (l : Line) : (pyStrip l).dropWhile isPySpace = pyStrip l := by
  have hm : (l.dropWhile isPySpace).dropWhile isPySpace = l.dropWhile isPySpace :=
    List.dropWhile_idempotent isPySpace l
  unfold pyStrip
  obtain ⟨t, ht⟩ := List.rdropWhile_prefix isPySpace (l.dropWhile isPySpace)
  cases hr : List.rdropWhile isPySpace (l.dropWhile isPySpace) with
  | nil => simp
  | cons c cs =>
    rw [hr] at ht
    rw [← ht, List.cons_append] at hm
    by_cases hc : isPySpace c
    · exfalso
      rw [List.dropWhile_cons_of_pos hc] at hm
      have h1 : (List.dropWhile isPySpace (cs ++ t)).length ≤ (cs ++ t).length :=
        (List.dropWhile_suffix isPySpace).sublist.length_le
      have h2 := congrArg List.length hm
      simp only [List.length_cons, List.length_append] at h1 h2
      omega
    · rw [List.dropWhile_cons_of_neg hc]

lemma rdropWhile_pyStrip (l : Line) : List.rdropWhile isPySpace (pyStrip l) = pyStrip l :=
  List.rdropWhile_idempotent _ _

lemma pyStrip_idem (l : Line) : pyStrip (pyStrip l) = pyStrip l := by
  show List.rdropWhile isPySpace ((pyStrip l).dropWhile isPySpace) = pyStrip l
  rw [dropWhile_pyStrip]
  exact rdropWhile_pyStrip l

lemma mem_of_mem_pyStrip {a : Char} {l : Line} (h : a ∈ pyStrip l) : a ∈ l := by
  have h1 : a ∈ l.dropWhile isPySpace :=
    (( List.rdropWhile_prefix isPySpace (l.dropWhile isPySpace)).sublist).mem h
  exact ((List.dropWhile_suffix isPySpace).sublist).mem h1

lemma mem_pyStrip_of_not_space {a : Char} {l : Line} (hp : isPySpace a = false)
    (h : a ∈ l) : a ∈ pyStrip l := by
  have h1 : a ∈ l.dropWhile isPySpace := by
    have hsplit := List.takeWhile_append_dropWhile (p := isPySpace) (l := l)
    rw [← hsplit] at h
    rcases List.mem_append.mp h with h2 | h2
    · have := List.mem_takeWhile_imp h2
      rw [hp] at this; exact absurd this (by simp)
    · exact h2
  have hsplit2 := rdropWhile_append_rtakeWhile isPySpace (l.dropWhile isPySpace)
  rw [← hsplit2] at h1
  rcases List.mem_append.mp h1 with h2 | h2
  · exact h2
  · have := List.mem_rtakeWhile_imp h2
    rw [hp] at this; exact absurd this (by simp)

lemma mem_pyStrip_iff_of_not_space {a : Char} {l : Line} (hp : isPySpace a = false) :
    a ∈ pyStrip l ↔ a ∈ l :=
  ⟨mem_of_mem_pyStrip, mem_pyStrip_of_not_space hp⟩

/-! ### Facts about keys -/

lemma notEq_of_space {a : Char} (h : isPySpace a = true) : notEq a = true := by
  by_contra hne
  rw [Bool.not_eq_true] at hne
  have ha : a = '=' := by simpa [notEq] using hne
  rw [ha] at h
  exact absurd h (by decide)

lemma pyStrip_eq (l : Line) :
    pyStrip l = List.rdropWhile isPySpace (l.dropWhile isPySpace) := rfl

/-- Splitting after stripping gives the same key as splitting the raw line
and then stripping: `strip(before_eq(strip(l))) = strip(before_eq(l))`. -/
lemma keyOf_pyStrip_eq (l : Line) : keyOf (pyStrip l) = pyStrip (beforeEq l) := by
  by_cases h : '=' ∈ l
  · have htw_ws : ∀ a ∈ l.takeWhile isPySpace, notEq a = true :=
      fun a ha => notEq_of_space (List.mem_takeWhile_imp ha)
    have h1 : beforeEq l = l.takeWhile isPySpace ++ beforeEq (l.dropWhile isPySpace) := by
      unfold beforeEq
      conv_lhs => rw [← List.takeWhile_append_dropWhile (p := isPySpace) (l := l)]
      exact takeWhile_append_of_forall _ htw_ws
    have h2 : pyStrip (beforeEq l) = pyStrip (beforeEq (l.dropWhile isPySpace)) := by
      rw [h1, pyStrip_eq, pyStrip_eq,
        dropWhile_append_of_forall _ (fun a ha => List.mem_takeWhile_imp ha)]
    have h4 : '=' ∈ pyStrip l := mem_pyStrip_of_not_space (by decide) h
    rw [pyStrip_eq] at h4
    have h5 : beforeEq (l.dropWhile isPySpace) =
        beforeEq (List.rdropWhile isPySpace (l.dropWhile isPySpace)) := by
      unfold beforeEq
      conv_lhs => rw [← rdropWhile_append_rtakeWhile isPySpace (l.dropWhile isPySpace)]
      exact takeWhile_append_of_mem_false _ h4 (by decide)
    unfold keyOf
    rw [pyStrip_eq l, h2, h5]
  · have hne : ∀ a ∈ l, notEq a = true := by
      intro a ha
      have haeq : a ≠ '=' := fun heq => h (heq ▸ ha)
      simpa [notEq] using haeq
    have h1 : beforeEq l = l := List.takeWhile_eq_self_iff.mpr hne
    have h2 : beforeEq (pyStrip l) = pyStrip l :=
      List.takeWhile_eq_self_iff.mpr (fun a ha => hne a (mem_of_mem_pyStrip ha))
    unfold keyOf
    rw [h1, h2, pyStrip_idem]

lemma pyStrip_cons_of_not_space {c : Char} (x : Line) (hc : isPySpace c = false) :
    pyStrip (c :: x) = c :: List.rdropWhile isPySpace x := by
  rw [pyStrip_eq, List.dropWhile_cons_of_neg (by simp [hc]), rdropWhile_cons_of_neg x hc]

lemma head_not_space_of_dropWhile_fix {c : Char} {s : Line}
    (h : (c :: s).dropWhile isPySpace = c :: s) : isPySpace c = false := by
  by_cases hc : isPySpace c
  · exfalso
    rw [List.dropWhile_cons_of_pos hc] at h
    have h1 : (s.dropWhile isPySpace).length ≤ s.length :=
      (List.dropWhile_suffix isPySpace).sublist.length_le
    have h2 := congrArg List.length h
    simp only [List.length_cons] at h2
    omega
  · exact Bool.eq_false_iff.mpr hc

lemma keyOf_head_ne_hash {l : Line} (h : isSkipped l = false) {c : Char}
    (hc : (keyOf (pyStrip l)).head? = some c) : c ≠ '#' := by
  unfold isSkipped at h
  rw [Bool.or_eq_false_iff] at h
  obtain ⟨hemp, hhash⟩ := h
  cases hps : pyStrip l with
  | nil => rw [hps] at hemp; exact absurd hemp (by simp)
  | cons c0 s =>
    have hc0hash : c0 ≠ '#' := by
      rw [hps] at hhash
      simpa [startsWithHash] using hhash
    have hc0ws : isPySpace c0 = false := by
      have hfix := dropWhile_pyStrip l
      rw [hps] at hfix
      exact head_not_space_of_dropWhile_fix hfix
    unfold keyOf at hc
    rw [hps] at hc
    by_cases hc0eq : notEq c0 = true
    · rw [show beforeEq (c0 :: s) = c0 :: s.takeWhile notEq by
        simp [beforeEq, List.takeWhile_cons, hc0eq]] at hc
      rw [pyStrip_cons_of_not_space _ hc0ws] at hc
      simp only [List.head?_cons, Option.some.injEq] at hc
      rw [← hc]
      exact hc0hash
    · rw [show beforeEq (c0 :: s) = [] by
        simp only [beforeEq, List.takeWhile_cons]
        rw [if_neg hc0eq]] at hc
      simp [pyStrip] at hc

lemma mem_get_env_keys_iff {lines : List Line} {k : Line} :
    k ∈ get_env_keys lines ↔ ∃ l, l ∈ lines ∧ isSkipped l = false ∧ keyOf (pyStrip l) = k := by
  unfold get_env_keys
  rw [List.mem_toFinset, List.mem_map]
  constructor
  · rintro ⟨l, hl, rfl⟩
    rcases List.mem_filter.mp hl with ⟨h1, h2⟩
    exact ⟨l, h1, by simpa using h2, rfl⟩
  · rintro ⟨l, h1, h2, rfl⟩
    exact ⟨l, List.mem_filter.mpr ⟨h1, by simp [h2]⟩, rfl⟩

/-- Every extracted key is trim-fixed, contains no `=`, and does not start
with `#`. -/
lemma key_props {lines : List Line} {k : Line} (h : k ∈ get_env_keys lines) :
    pyStrip k = k ∧ '=' ∉ k ∧ ∀ c, k.head? = some c → c ≠ '#' := by
  rcases mem_get_env_keys_iff.mp h with ⟨l, _, hskip, rfl⟩
  refine ⟨?_, ?_, fun c hc => keyOf_head_ne_hash hskip hc⟩
  · unfold keyOf
    exact pyStrip_idem _
  · intro hmem
    have h1 : '=' ∈ beforeEq (pyStrip l) := mem_of_mem_pyStrip hmem
    have h2 := List.mem_takeWhile_imp h1
    simp [notEq] at h2

/-! ### Structure of get_env_keys -/

lemma get_env_keys_nil : get_env_keys [] = ∅ := rfl

lemma get_env_keys_cons_of_skip {l : Line} (rest : List Line) (h : isSkipped l = true) :
    get_env_keys (l :: rest) = get_env_keys rest := by
  unfold get_env_keys
  rw [List.filter_cons_of_neg (by simp [h])]

lemma get_env_keys_cons_of_mem {l : Line} (rest : List Line) (h : isSkipped l = false) :
    get_env_keys (l :: rest) = insert (keyOf (pyStrip l)) (get_env_keys rest) := by
  unfold get_env_keys
  rw [List.filter_cons_of_pos (by simp [h]), List.map_cons, List.toFinset_cons]

lemma get_env_keys_append (a b : List Line) :
    get_env_keys (a ++ b) = get_env_keys a ∪ get_env_keys b := by
  unfold get_env_keys
  rw [List.filter_append, List.map_append, List.toFinset_append]

lemma toFinset_get_env_keys_list (lines : List Line) :
    (get_env_keys_list lines).toFinset = get_env_keys lines := by
  unfold get_env_keys_list get_env_keys
  ext a
  simp [List.mem_dedup]

lemma mem_get_env_keys_list_iff {lines : List Line} {k : Line} :
    k ∈ get_env_keys_list lines ↔ k ∈ get_env_keys lines := by
  rw [← toFinset_get_env_keys_list, List.mem_toFinset]

lemma nodup_get_env_keys_list (lines : List Line) : (get_env_keys_list lines).Nodup :=
  List.nodup_dedup _

/-! ### Structure of the missing-key list -/

lemma mem_missingList_iff {env ex : List Line} {k : Line} :
    k ∈ missingList env ex ↔
      k ∈ get_missing_keys (get_env_keys env) (get_env_keys ex) := by
  unfold missingList get_missing_keys
  rw [List.mem_filter, mem_get_env_keys_list_iff, Finset.mem_sdiff]
  simp

lemma toFinset_missingList (env ex : List Line) :
    (missingList env ex).toFinset =
      get_missing_keys (get_env_keys env) (get_env_keys ex) := by
  ext a
  rw [List.mem_toFinset, mem_missingList_iff]

lemma nodup_missingList (env ex : List Line) : (missingList env ex).Nodup :=
  (nodup_get_env_keys_list env).filter _

lemma missingList_eq_nil_iff (env ex : List Line) :
    missingList env ex = [] ↔
      get_missing_keys (get_env_keys env) (get_env_keys ex) = ∅ := by
  rw [← toFinset_missingList]
  exact (List.toFinset_eq_empty_iff _).symm

/-! ### Round trip of appended `key=` lines through the extractor -/

lemma appended_key_line {k : Line} (hstrip : pyStrip k = k) (hne : '=' ∉ k)
    (hhash : ∀ c, k.head? = some c → c ≠ '#') :
    isSkipped (k ++ ['=']) = false ∧ keyOf (pyStrip (k ++ ['='])) = k := by
  have hdw : k.dropWhile isPySpace = k := by
    conv_lhs => rw [← hstrip]
    rw [dropWhile_pyStrip, hstrip]
  have hps : pyStrip (k ++ ['=']) = k ++ ['='] := by
    rw [pyStrip_eq, dropWhile_append_singleton (by decide), hdw,
        List.rdropWhile_concat_neg isPySpace k '=' (by decide)]
  have hskip : isSkipped (k ++ ['=']) = false := by
    unfold isSkipped
    rw [hps, Bool.or_eq_false_iff]
    refine ⟨by simp, ?_⟩
    cases k with
    | nil => decide
    | cons c t =>
      have hc : c ≠ '#' := hhash c rfl
      simpa [startsWithHash] using hc
  have hbe : beforeEq (k ++ ['=']) = k := by
    unfold beforeEq
    rw [takeWhile_append_of_forall _ (fun a ha => by
      have haeq : a ≠ '=' := fun he => hne (he ▸ ha)
      simpa [notEq] using haeq)]
    rw [show List.takeWhile notEq ['='] = [] from by decide, List.append_nil]
  refine ⟨hskip, ?_⟩
  rw [hps]
  unfold keyOf
  rw [hbe, hstrip]

lemma get_env_keys_map_append_eq (ms : List Line)
    (hprops : ∀ k ∈ ms, pyStrip k = k ∧ '=' ∉ k ∧ ∀ c, k.head? = some c → c ≠ '#') :
    get_env_keys (ms.map (fun k => k ++ ['='])) = ms.toFinset := by
  induction ms with
  | nil => rfl
  | cons k t ih =>
    obtain ⟨h1, h2, h3⟩ := hprops k (by simp)
    obtain ⟨hskip, hkey⟩ := appended_key_line h1 h2 h3
    rw [List.map_cons, get_env_keys_cons_of_mem _ hskip, hkey,
        ih (fun a ha => hprops a (by simp [ha])), List.toFinset_cons]

lemma get_env_keys_block (ms : List Line)
    (hprops : ∀ k ∈ ms, pyStrip k = k ∧ '=' ∉ k ∧ ∀ c, k.head? = some c → c ≠ '#') :
    get_env_keys (([] : Line) :: markerLine :: ms.map (fun k => k ++ ['='])) =
      ms.toFinset := by
  rw [get_env_keys_cons_of_skip _ (by decide), get_env_keys_cons_of_skip _ (by decide),
      get_env_keys_map_append_eq ms hprops]

/-! ### The empty-value scanner -/

lemma afterEq_eq_none_iff {l : Line} : afterEq l = none ↔ '=' ∉ l := by
  constructor
  · intro h hmem
    unfold afterEq at h
    cases hd : l.dropWhile notEq with
    | nil =>
      have h2 := List.dropWhile_eq_nil_iff.mp hd _ hmem
      simp [notEq] at h2
    | cons c rest => rw [hd] at h; exact absurd h (by simp)
  · intro h
    unfold afterEq
    have hd : l.dropWhile notEq = [] := List.dropWhile_eq_nil_iff.mpr (fun x hx => by
      have hxe : x ≠ '=' := fun he => h (he ▸ hx)
      simpa [notEq] using hxe)
    rw [hd]

lemma afterEq_pyStrip_eq_none_iff {l : Line} : afterEq (pyStrip l) = none ↔ '=' ∉ l := by
  rw [afterEq_eq_none_iff]
  exact not_congr (mem_pyStrip_iff_of_not_space (by decide))

lemma go_cons_skip {line : Line} (rest : List Line) (acc : Finset Line)
    (h : isSkipped line = true) :
    find_empty_keys_go (line :: rest) acc = find_empty_keys_go rest acc := by
  simp [find_empty_keys_go, h]

lemma go_cons_none {line : Line} (rest : List Line) (acc : Finset Line)
    (h1 : isSkipped line = false) (h2 : afterEq (pyStrip line) = none) :
    find_empty_keys_go (line :: rest) acc = none := by
  simp [find_empty_keys_go, h1, h2]

lemma go_cons_some_empty {line v : Line} (rest : List Line) (acc : Finset Line)
    (h1 : isSkipped line = false) (h2 : afterEq (pyStrip line) = some v)
    (h3 : (pyStrip v).isEmpty = true) :
    find_empty_keys_go (line :: rest) acc =
      find_empty_keys_go rest (insert (keyOf (pyStrip line)) acc) := by
  simp [find_empty_keys_go, h1, h2, h3]

lemma go_cons_some_nonempty {line v : Line} (rest : List Line) (acc : Finset Line)
    (h1 : isSkipped line = false) (h2 : afterEq (pyStrip line) = some v)
    (h3 : (pyStrip v).isEmpty = false) :
    find_empty_keys_go (line :: rest) acc = find_empty_keys_go rest acc := by
  simp [find_empty_keys_go, h1, h2, h3]

lemma go_eq_none_iff (lines : List Line) (acc : Finset Line) :
    find_empty_keys_go lines acc = none ↔
      ∃ l, l ∈ lines ∧ isSkipped l = false ∧ afterEq (pyStrip l) = none := by
  induction lines generalizing acc with
  | nil => simp [find_empty_keys_go]
  | cons line rest ih =>
    by_cases h1 : isSkipped line
    · rw [go_cons_skip rest acc h1, ih acc]
      constructor
      · rintro ⟨l, hl, hp⟩
        exact ⟨l, List.mem_cons_of_mem _ hl, hp⟩
      · rintro ⟨l, hl, hp1, hp2⟩
        rcases List.mem_cons.mp hl with rfl | hl2
        · rw [h1] at hp1; exact absurd hp1 (by simp)
        · exact ⟨l, hl2, hp1, hp2⟩
    · have h1' : isSkipped line = false := by simpa using h1
      cases h2 : afterEq (pyStrip line) with
      | none =>
        rw [go_cons_none rest acc h1' h2]
        simp only [true_iff]
        exact ⟨line, List.mem_cons_self _ _, h1', h2⟩
      | some v =>
        have step : ∀ acc2 : Finset Line, find_empty_keys_go rest acc2 = none ↔
            ∃ l, l ∈ (line :: rest) ∧ isSkipped l = false ∧ afterEq (pyStrip l) = none := by
          intro acc2
          rw [ih acc2]
          constructor
          · rintro ⟨l, hl, hp⟩
            exact ⟨l, List.mem_cons_of_mem _ hl, hp⟩
          · rintro ⟨l, hl, hp1, hp2⟩
            rcases List.mem_cons.mp hl with rfl | hl2
            · rw [h2] at hp2; exact absurd hp2 (by simp)
            · exact ⟨l, hl2, hp1, hp2⟩
        by_cases h3 : (pyStrip v).isEmpty
        · rw [go_cons_some_empty rest acc h1' h2 (by simpa using h3)]
          exact step _
        · rw [go_cons_some_nonempty rest acc h1' h2 (by simpa using h3)]
          exact step _

lemma go_eq_some_of_wf (lines : List Line) (acc : Finset Line)
    (hwf : ∀ l ∈ lines, isSkipped l = false → afterEq (pyStrip l) ≠ none) :
    find_empty_keys_go lines acc = some (acc ∪ spec_empty_keys lines) := by
  induction lines generalizing acc with
  | nil => simp [find_empty_keys_go, spec_empty_keys]
  | cons line rest ih =>
    have hwf2 : ∀ l ∈ rest, isSkipped l = false → afterEq (pyStrip l) ≠ none :=
      fun l hl => hwf l (List.mem_cons_of_mem _ hl)
    by_cases h1 : isSkipped line
    · rw [go_cons_skip rest acc h1, ih acc hwf2]
      have hE : spec_empty_keys (line :: rest) = spec_empty_keys rest := by
        unfold spec_empty_keys
        rw [List.filter_cons_of_neg (by simp [h1])]
      rw [hE]
    · have h1' : isSkipped line = false := by simpa using h1
      cases h2 : afterEq (pyStrip line) with
      | none => exact absurd h2 (hwf line (List.mem_cons_self _ _) h1')
      | some v =>
        by_cases h3 : (pyStrip v).isEmpty
        · rw [go_cons_some_empty rest acc h1' h2 (by simpa using h3),
              ih _ hwf2]
          have hE : spec_empty_keys (line :: rest) =
              insert (keyOf (pyStrip line)) (spec_empty_keys rest) := by
            unfold spec_empty_keys
            rw [List.filter_cons_of_pos (by simp [h1']), List.filterMap_cons]
            rw [h2]
            simp only [h3, if_true, List.toFinset_cons]
          rw [hE]
          congr 1
          ext a
          simp only [Finset.mem_union, Finset.mem_insert]
          tauto
        · rw [go_cons_some_nonempty rest acc h1' h2 (by simpa using h3),
              ih _ hwf2]
          have hE : spec_empty_keys (line :: rest) = spec_empty_keys rest := by
            unfold spec_empty_keys
            rw [List.filter_cons_of_pos (by simp [h1']), List.filterMap_cons]
            rw [h2]
            simp only [h3, if_false, Bool.false_eq_true]
          rw [hE]

lemma spec_extract_keys_cons_of_skip {l : Line} (rest : List Line)
    (h : isSkipped l = true) :
    spec_extract_keys (l :: rest) = spec_extract_keys rest := by
  unfold spec_extract_keys
  rw [List.filter_cons_of_neg (by simp [h])]

lemma spec_extract_keys_cons_of_mem {l : Line} (rest : List Line)
    (h : isSkipped l = false) (he : '=' ∈ l) :
    spec_extract_keys (l :: rest) =
      insert (pyStrip (beforeEq l)) (spec_extract_keys rest) := by
  unfold spec_extract_keys
  rw [List.filter_cons_of_pos (by simp [h]), List.filterMap_cons,
      show specKeyOf l = some (pyStrip (beforeEq l)) from by
        unfold specKeyOf; rw [if_pos he],
      List.toFinset_cons]

lemma go_some_subset {lines : List Line} {acc s : Finset Line}
    (h : find_empty_keys_go lines acc = some s) : s ⊆ acc ∪ get_env_keys lines := by
  induction lines generalizing acc with
  | nil =>
    simp only [find_empty_keys_go, Option.some.injEq] at h
    rw [← h, get_env_keys_nil]
    simp
  | cons line rest ih =>
    by_cases h1 : isSkipped line
    · rw [go_cons_skip rest acc h1] at h
      rw [get_env_keys_cons_of_skip _ h1]
      exact ih h
    · have h1' : isSkipped line = false := by simpa using h1
      rw [get_env_keys_cons_of_mem _ h1']
      cases h2 : afterEq (pyStrip line) with
      | none => rw [go_cons_none rest acc h1' h2] at h; exact absurd h (by simp)
      | some v =>
        by_cases h3 : (pyStrip v).isEmpty
        · rw [go_cons_some_empty rest acc h1' h2 (by simpa using h3)] at h
          intro a ha
          have h4 := ih h ha
          simp only [Finset.mem_union, Finset.mem_insert] at h4 ⊢
          tauto
        · rw [go_cons_some_nonempty rest acc h1' h2 (by simpa using h3)] at h
          intro a ha
          have h4 := ih h ha
          simp only [Finset.mem_union, Finset.mem_insert] at h4 ⊢
          tauto

/-! ### Claim theorems -/

/-- C1 (counterexample): the file consisting of the single non-blank,
non-comment line `ABC`, which contains no `=`, is not rejected by
`get_env_keys`: the function returns normally and the whole line is accepted
as a key — so the extractor does not fail with a ParseError on such a line as
the claim states. -/
theorem get_env_keys_no_eq_line_accepted :
    isSkipped "ABC".toList = false ∧ '=' ∉ "ABC".toList ∧
    get_env_keys ["ABC".toList] = {"ABC".toList} := by decide

/-- C1 (amended): `get_env_keys` never fails; a non-blank, non-comment line
with no `=` is neither skipped nor rejected — its whole trimmed content is
accepted as a key (Python `line.split("=", 1)[0]` is the entire line when
there is no `=`). -/
theorem get_env_keys_accepts_no_eq_lines (lines : List Line) (l : Line)
    (hmem : l ∈ lines) (hskip : isSkipped l = false) (hne : '=' ∉ l) :
    pyStrip l ∈ get_env_keys lines := by
  have hb : beforeEq (pyStrip l) = pyStrip l :=
    List.takeWhile_eq_self_iff.mpr (fun a ha => by
      have haeq : a ≠ '=' := fun he => hne (he ▸ mem_of_mem_pyStrip ha)
      simpa [notEq] using haeq)
  have hkey : keyOf (pyStrip l) = pyStrip l := by
    unfold keyOf
    rw [hb, pyStrip_idem]
  rw [← hkey]
  exact mem_get_env_keys_iff.mpr ⟨l, hmem, hskip, rfl⟩

/-- Witness for C1's amended theorem at the file `["ABC"]`. -/
theorem get_env_keys_accepts_no_eq_lines_witness :
    pyStrip "ABC".toList ∈ get_env_keys ["ABC".toList] :=
  get_env_keys_accepts_no_eq_lines ["ABC".toList] "ABC".toList (by decide) (by decide)
    (by decide)

/-- C2 (code evaluation at the failing input): with the example file holding
keys {A,B}, auto-approval on, and a non-existent target file,
`init_env_file` writes nothing — the target file still does not exist
afterwards — whereas the very same call with an existing target overwrites
it with `A=` and `B=` lines.  The write is reachable only inside the
`os.path.exists` branch. -/
theorem init_env_file_skips_nonexistent_target :
    init_env_file true true ["A=1".toList, "B=2".toList] none = none ∧
    init_env_file true true ["A=1".toList, "B=2".toList] (some [])
      = some ["A=".toList, "B=".toList] := by decide

/-- C3: on well-formed files (every non-blank, non-comment line contains an
`=`), `get_env_keys` returns exactly the spec-described set — the trimmed
substrings left of the first `=` of each non-skipped line; and the two
scenario files evaluate as the claim states. -/
theorem get_env_keys_spec :
    (∀ lines : List Line, (∀ l ∈ lines, isSkipped l = false → '=' ∈ l) →
      get_env_keys lines = spec_extract_keys lines) ∧
    get_env_keys ["A=1".toList, "B=".toList, "#comment".toList]
      = {"A".toList, "B".toList} ∧
    get_env_keys ["A=2".toList] = {"A".toList} := by
  refine ⟨?_, by decide, by decide⟩
  intro lines hwf
  induction lines with
  | nil => rfl
  | cons line rest ih =>
    have hwf2 : ∀ l ∈ rest, isSkipped l = false → '=' ∈ l :=
      fun l hl => hwf l (List.mem_cons_of_mem _ hl)
    by_cases h1 : isSkipped line
    · rw [get_env_keys_cons_of_skip _ h1, spec_extract_keys_cons_of_skip _ h1, ih hwf2]
    · have h1' : isSkipped line = false := by simpa using h1
      have heq : '=' ∈ line := hwf line (List.mem_cons_self _ _) h1'
      rw [get_env_keys_cons_of_mem _ h1', spec_extract_keys_cons_of_mem _ h1' heq,
          ih hwf2, keyOf_pyStrip_eq]

/-- Witness for C3's general part at the file `["A=1"]`. -/
theorem get_env_keys_spec_witness :
    get_env_keys ["A=1".toList] = spec_extract_keys ["A=1".toList] :=
  get_env_keys_spec.1 ["A=1".toList] (by decide)

/-- C4 (counterexample): the file with the single line `=x` yields the empty
string as an extracted key, so extracted keys are not always non-empty. -/
theorem empty_key_extracted :
    ([] : Line) ∈ get_env_keys ["=x".toList] ∧ ([] : Line).length = 0 := by decide

/-- C4 (amended): every key returned by `get_env_keys` equals its own trimmed
form and contains no `=`; the non-emptiness part of the claim fails (keys may
be the empty string, see the counterexample). -/
theorem key_trimmed_no_eq (lines : List Line) (k : Line)
    (h : k ∈ get_env_keys lines) : pyStrip k = k ∧ '=' ∉ k :=
  ⟨(key_props h).1, (key_props h).2.1⟩

/-- Witness for C4's amended theorem at the key `A` of the file `["A=1"]`. -/
theorem key_trimmed_no_eq_witness :
    pyStrip "A".toList = "A".toList ∧ '=' ∉ "A".toList :=
  key_trimmed_no_eq ["A=1".toList] "A".toList (by decide)

/-- C5: when no keys are missing, `fix_missing_keys` leaves the example file
unchanged; otherwise it appends exactly a blank line, the marker comment
`# Added by envalidator`, and one `key=` line per missing key (the missing
keys in some duplicate-free enumeration of the set difference), in that
order, keeping the existing content as a prefix. -/
theorem fix_missing_keys_spec (envLines exampleLines : List Line) :
    (get_missing_keys (get_env_keys envLines) (get_env_keys exampleLines) = ∅ →
      fix_missing_keys envLines exampleLines = exampleLines) ∧
    (get_missing_keys (get_env_keys envLines) (get_env_keys exampleLines) ≠ ∅ →
      ∃ ms : List Line, ms.Nodup ∧
        ms.toFinset
          = get_missing_keys (get_env_keys envLines) (get_env_keys exampleLines) ∧
        fix_missing_keys envLines exampleLines =
          exampleLines ++ ([] : Line) :: markerLine :: ms.map (fun k => k ++ ['='])) := by
  constructor
  · intro h
    have hnil : missingList envLines exampleLines = [] :=
      (missingList_eq_nil_iff _ _).mpr h
    unfold fix_missing_keys
    rw [hnil]
    rfl
  · intro h
    have hnil : missingList envLines exampleLines ≠ [] :=
      fun hc => h ((missingList_eq_nil_iff _ _).mp hc)
    refine ⟨missingList envLines exampleLines, nodup_missingList _ _,
      toFinset_missingList _ _, ?_⟩
    unfold fix_missing_keys
    rw [if_neg (by simpa using hnil)]

/-- Witness for C5 at a no-missing-keys pair and at a missing-key pair. -/
theorem fix_missing_keys_spec_witness :
    (fix_missing_keys ["A=1".toList] ["A=2".toList] = ["A=2".toList]) ∧
    (∃ ms : List Line, ms.Nodup ∧
      ms.toFinset = get_missing_keys (get_env_keys ["A=1".toList, "B=2".toList])
        (get_env_keys ["A=1".toList]) ∧
      fix_missing_keys ["A=1".toList, "B=2".toList] ["A=1".toList] =
        ["A=1".toList] ++ ([] : Line) :: markerLine :: ms.map (fun k => k ++ ['='])) :=
  ⟨(fix_missing_keys_spec ["A=1".toList] ["A=2".toList]).1 (by decide),
   (fix_missing_keys_spec ["A=1".toList, "B=2".toList] ["A=1".toList]).2 (by decide)⟩

/-- C6: `find_empty_keys` fails exactly when some non-blank, non-comment line
lacks an `=`; on success it returns exactly the trimmed keys of the
non-blank, non-comment lines whose value after the first `=` is empty after
trimming. -/
theorem find_empty_keys_spec (lines : List Line) :
    (find_empty_keys lines = none ↔
      ∃ l, l ∈ lines ∧ isSkipped l = false ∧ '=' ∉ l) ∧
    (∀ s, find_empty_keys lines = some s → s = spec_empty_keys lines) := by
  constructor
  · rw [find_empty_keys, go_eq_none_iff]
    constructor
    · rintro ⟨l, h1, h2, h3⟩
      exact ⟨l, h1, h2, afterEq_pyStrip_eq_none_iff.mp h3⟩
    · rintro ⟨l, h1, h2, h3⟩
      exact ⟨l, h1, h2, afterEq_pyStrip_eq_none_iff.mpr h3⟩
  · intro s hs
    by_cases hwf : ∀ l ∈ lines, isSkipped l = false → afterEq (pyStrip l) ≠ none
    · rw [find_empty_keys, go_eq_some_of_wf lines ∅ hwf] at hs
      have := Option.some.inj hs
      rw [← this]
      simp
    · push_neg at hwf
      obtain ⟨l, h1, h2, h3⟩ := hwf
      have hnone : find_empty_keys lines = none := by
        rw [find_empty_keys, go_eq_none_iff]
        exact ⟨l, h1, h2, h3⟩
      rw [hnone] at hs
      exact absurd hs (by simp)

/-- Witness for C6's success part at the file `["A="]`. -/
theorem find_empty_keys_spec_witness :
    find_empty_keys ["A=".toList] = some {"A".toList} ∧
    ({"A".toList} : Finset Line) = spec_empty_keys ["A=".toList] :=
  ⟨by decide, (find_empty_keys_spec ["A=".toList]).2 {"A".toList} (by decide)⟩

/-- C7: whenever the empty-value scanner succeeds on a file, the set it
returns is contained in the key set the extractor returns for that file. -/
theorem empty_keys_subset_extract_keys (lines : List Line) (s : Finset Line)
    (h : find_empty_keys lines = some s) : s ⊆ get_env_keys lines := by
  have h2 : s ⊆ ∅ ∪ get_env_keys lines := go_some_subset h
  simpa using h2

/-- Witness for C7 at the file `["A=1", "B="]`. -/
theorem empty_keys_subset_extract_keys_witness :
    ({"B".toList} : Finset Line) ⊆ get_env_keys ["A=1".toList, "B=".toList] :=
  empty_keys_subset_extract_keys ["A=1".toList, "B=".toList] {"B".toList} (by decide)

/-- C8: `get_missing_keys` is the pure set difference, with the three
consequences `A − A = ∅`, `A − ∅ = A` and `∅ − B = ∅` (as a Lean function it
is pure by construction, matching the claim's "no side effects"). -/
theorem get_missing_keys_is_sdiff (A B : Finset Line) :
    get_missing_keys A B = A \ B ∧ get_missing_keys A A = ∅ ∧
    get_missing_keys A ∅ = A ∧ get_missing_keys ∅ B = ∅ := by
  refine ⟨rfl, ?_, ?_, ?_⟩ <;> simp [get_missing_keys]

/-- C9: `confirm_action` is determined by the first decisive input line
(one that, lowercased and stripped, is `y`/`yes` or `n`/`no`/empty): it
answers `true` exactly when that line is a yes, `false` when it is a no, and
gives no answer so long as no decisive line occurs (indecisive lines only
cause a re-prompt). -/
theorem confirm_action_first_decisive (input : List Line) :
    confirm_action input =
      ((input.filter (fun l => isDecisive (normalizeChoice l))).head?).map
        (fun l => isYesChoice (normalizeChoice l)) := by
  induction input with
  | nil => rfl
  | cons line rest ih =>
    by_cases hy : isYesChoice (normalizeChoice line)
    · rw [show confirm_action (line :: rest) = some true by
        simp [confirm_action, hy]]
      rw [List.filter_cons_of_pos (by simp [isDecisive, hy])]
      simp [hy]
    · by_cases hn : isNoChoice (normalizeChoice line)
      · rw [show confirm_action (line :: rest) = some false by
          simp [confirm_action, hy, hn]]
        rw [List.filter_cons_of_pos (by simp [isDecisive, hn])]
        simp [show isYesChoice (normalizeChoice line) = false from by simpa using hy]
      · rw [show confirm_action (line :: rest) = confirm_action rest by
          simp [confirm_action, hy, hn]]
        rw [List.filter_cons_of_neg (by simp [isDecisive, hy, hn])]
        exact ih

/-- C10: after `fix_missing_keys`, the keys extracted from the resulting
example file include every key of the env file, so re-running the
missing-key computation on the result yields the empty set. -/
theorem fix_missing_keys_superset (envLines exampleLines : List Line) :
    get_env_keys envLines ⊆ get_env_keys (fix_missing_keys envLines exampleLines) ∧
    get_missing_keys (get_env_keys envLines)
      (get_env_keys (fix_missing_keys envLines exampleLines)) = ∅ := by
  have hsub : get_env_keys envLines
      ⊆ get_env_keys (fix_missing_keys envLines exampleLines) := by
    unfold fix_missing_keys
    by_cases hnil : (missingList envLines exampleLines).isEmpty
    · rw [if_pos hnil]
      have hlist : missingList envLines exampleLines = [] := by simpa using hnil
      have hdiff : get_missing_keys (get_env_keys envLines)
          (get_env_keys exampleLines) = ∅ := (missingList_eq_nil_iff _ _).mp hlist
      unfold get_missing_keys at hdiff
      exact Finset.sdiff_eq_empty_iff_subset.mp hdiff
    · rw [if_neg hnil]
      have hprops : ∀ a ∈ missingList envLines exampleLines,
          pyStrip a = a ∧ '=' ∉ a ∧ ∀ c, a.head? = some c → c ≠ '#' := by
        intro a ha
        have h1 : a ∈ get_missing_keys (get_env_keys envLines)
            (get_env_keys exampleLines) := mem_missingList_iff.mp ha
        unfold get_missing_keys at h1
        exact key_props (Finset.mem_sdiff.mp h1).1
      intro k hk
      rw [get_env_keys_append, get_env_keys_block _ hprops, toFinset_missingList,
          Finset.mem_union]
      unfold get_missing_keys
      rw [Finset.mem_sdiff]
      by_cases hkex : k ∈ get_env_keys exampleLines
      · exact Or.inl hkex
      · exact Or.inr ⟨hk, hkex⟩
  refine ⟨hsub, ?_⟩
  unfold get_missing_keys
  exact Finset.sdiff_eq_empty_iff_subset.mpr hsub

end Envalidator
